import Mathlib

/-!
Verification of the EEG signal extraction-and-normalization core of this
repository (`eeg.py`, function `plot_eeg_signals_with_avd`, lines 27-48 for
extraction and lines 62-65 for normalization) against its specification.

The embedding is exact over ℚ: every arithmetic step of the source is a
rational operation here (the source computes in IEEE floating point; no claim
below depends on rounding, and the one place the source divides by zero is
recorded explicitly).  The dataset dictionary becomes a structure with
optional fields, mirroring the `'data' in data` / `'labels' in data`
membership tests; Python `IndexError` on an unguarded subscript becomes the
`indexAccess` error value; the `ValueError`s the source raises become
`datasetIntegrity` (missing fields) and `rangeBound` (trial or channel out of
bounds), matching the spec's `DatasetIntegrityError` and `RangeError`.
-/

namespace Eeg

/-- The distinguishable failure kinds observable from the embedded code.
`datasetIntegrity` is the `ValueError` of eeg.py line 29 (missing dict
fields), `rangeBound` is the `ValueError` of lines 36 and 40 (trial or
channel index out of bounds), and `indexAccess` is a Python `IndexError`
from an unguarded subscript (the source has no typed error for those). -/
inductive EegError where
  | datasetIntegrity
  | rangeBound
  | indexAccess
deriving DecidableEq, Repr

/-- The loaded pickle: a dictionary that may or may not contain the keys
`data` (shape (trial, channel, time), embedded as nested lists) and
`labels` (shape (trial, attribute)).  `none` models an absent key. -/
structure Dataset where
  data? : Option (List (List (List ℚ)))
  labels? : Option (List (List ℚ))
deriving DecidableEq, Repr

/-- What the extraction phase of `plot_eeg_signals_with_avd` produces before
plotting: the selected per-channel signals in request order, the two scalar
labels, and the length of `selected_signals[0]` (the source computes
`time_steps = np.arange(selected_signals[0].shape[0])` at line 48). -/
structure TrialView where
  signals : List (List ℚ)
  valence : ℚ
  arousal : ℚ
  timeSteps : ℕ
deriving DecidableEq, Repr

/-- `eeg_data.shape[1]` of the source: the channel count.  A numpy array is
rectangular, so the first trial's row count is the uniform channel count. -/
def channelCount (eeg : List (List (List ℚ))) : ℕ :=
  (eeg.headD []).length

/-- `eeg_data.shape[2]` of the source: the per-trial sample count. -/
def sampleCount (eeg : List (List (List ℚ))) : ℕ :=
  ((eeg.headD []).headD []).length

/-- Rectangularity of the embedded 3-d array: what numpy guarantees for
`data['data']` by construction. -/
def WellShaped (eeg : List (List (List ℚ))) : Prop :=
  (∀ t ∈ eeg, t.length = channelCount eeg) ∧
  (∀ t ∈ eeg, ∀ c ∈ t, c.length = sampleCount eeg)

/-- Line 47 of the source:
`selected_signals = [eeg_data[trial_number, channel, :] for channel in channels_to_plot]`.
Each subscript is unguarded, so a failing access is a Python `IndexError`;
the comprehension evaluates left to right and stops at the first failure. -/
def selectSignals (eeg : List (List (List ℚ))) (trial : ℕ) :
    List ℤ → Except EegError (List (List ℚ))
  | [] => .ok []
  | ch :: rest =>
    match (eeg[trial]?).bind (fun t => t[ch.toNat]?) with
    | none => .error .indexAccess
    | some s =>
      match selectSignals eeg trial rest with
      | .ok ss => .ok (s :: ss)
      | .error e => .error e

/-- Lines 27-48 of `plot_eeg_signals_with_avd`, in source order:
1. `if 'data' not in data or 'labels' not in data: raise ValueError(...)`;
2. `if trial_number < 0 or trial_number >= eeg_data.shape[0]: raise ValueError(...)`;
3. `for channel_number in channels_to_plot: if channel_number < 0 or
   channel_number >= eeg_data.shape[1]: raise ValueError(...)` — every
   requested channel is checked before any data is touched;
4. `valence = avd_labels[trial_number][0]` and
   `arousal = avd_labels[trial_number][1]` (unguarded subscripts);
5. the `selected_signals` comprehension of line 47;
6. `time_steps = np.arange(selected_signals[0].shape[0])` (line 48), an
   unguarded subscript of the selected list. -/
def extract (ds : Dataset) (trial : ℤ) (channels : List ℤ) :
    Except EegError TrialView :=
  match ds.data?, ds.labels? with
  | some eeg, some labels =>
    if trial < 0 ∨ (eeg.length : ℤ) ≤ trial then
      .error .rangeBound
    else if channels.any (fun ch => ch < 0 ∨ (channelCount eeg : ℤ) ≤ ch) then
      .error .rangeBound
    else
      match (labels[trial.toNat]?).bind (fun row => row[0]?),
            (labels[trial.toNat]?).bind (fun row => row[1]?) with
      | some valence, some arousal =>
        match selectSignals eeg trial.toNat channels with
        | .ok sigs =>
          match sigs.head? with
          | none => .error .indexAccess
          | some s0 => .ok ⟨sigs, valence, arousal, s0.length⟩
        | .error e => .error e
      | _, _ => .error .indexAccess
  | _, _ => .error .datasetIntegrity

/-- `np.min(signal)` over a (nonempty) 1-d array, as a fold; the source
never evaluates it on an empty array, so the `[]` value is irrelevant. -/
def yMin : List ℚ → ℚ
  | [] => 0
  | x :: xs => xs.foldl min x

/-- `np.max(signal)` over a (nonempty) 1-d array, as a fold. -/
def yMax : List ℚ → ℚ
  | [] => 0
  | x :: xs => xs.foldl max x

/-- Lines 62-65 of the source, verbatim:
`y_min, y_max = np.min(signal), np.max(signal)`;
`y_center = (y_min + y_max) / 2`;
`y_range = (y_max - y_min) / zoom_y`;
`normalized_signal = (signal - y_center) / y_range`.
There is no validation of `zoom_y`, no emptiness check, and no guard on
`y_range == 0`: the computation is straight-line arithmetic with no error
path.  (Over ℚ a division by zero yields 0 where IEEE yields ±inf/NaN;
either way the source raises nothing.) -/
def normalize (signal : List ℚ) (zoom_y : ℚ) : List ℚ :=
  let y_center := (yMin signal + yMax signal) / 2
  let y_range := (yMax signal - yMin signal) / zoom_y
  signal.map (fun x => (x - y_center) / y_range)

/-- A concrete dataset for witnesses, following the spec's concrete scenario:
2 trials, 3 channels, 4 samples, trial 0 channel 1 equal to `[0, 2, 4, 6]`. -/
def eegEx : List (List (List ℚ)) :=
  [[[9, 9, 9, 9], [0, 2, 4, 6], [8, 8, 8, 8]],
   [[7, 8, 9, 10], [0, 0, 0, 0], [1, 2, 3, 4]]]

/-- Labels for the concrete dataset: trial 0 has valence 5 and arousal 6. -/
def labelsEx : List (List ℚ) :=
  [[5, 6, 0, 0], [3, 4, 0, 0]]

/-- The concrete dataset with both fields present. -/
def dsEx : Dataset :=
  { data? := some eegEx, labels? := some labelsEx }

/-- A dataset whose sample-array field is absent. -/
def dsNoData : Dataset :=
  { data? := none, labels? := some labelsEx }

/-- The spec's concrete normalization input, trial 0 channel 1. -/
def sEx : List ℚ := [0, 2, 4, 6]

end Eeg

namespace Eeg

/-! Helper lemmas: `yMin`/`yMax` are the minimum and maximum of a nonempty
list, and they commute with maps that preserve `min`/`max`. -/

theorem foldl_min_le_init : ∀ (xs : List ℚ) (a : ℚ), xs.foldl min a ≤ a
  | [], _ => le_refl _
  | x :: xs, a => le_trans (foldl_min_le_init xs (min a x)) (min_le_left a x)

theorem foldl_min_le_mem : ∀ (xs : List ℚ) (a x : ℚ), x ∈ xs → xs.foldl min a ≤ x
  | y :: xs, a, x, hx => by
    rcases List.mem_cons.mp hx with h | h
    · subst h
      exact le_trans (foldl_min_le_init xs (min a x)) (min_le_right a x)
    · exact foldl_min_le_mem xs (min a y) x h

theorem yMin_le {s : List ℚ} {x : ℚ} (hx : x ∈ s) : yMin s ≤ x := by
  cases s with
  | nil => cases hx
  | cons y ys =>
    rcases List.mem_cons.mp hx with h | h
    · subst h; exact foldl_min_le_init ys x
    · exact foldl_min_le_mem ys y x h

theorem foldl_min_eq_or_mem : ∀ (xs : List ℚ) (a : ℚ),
    xs.foldl min a = a ∨ xs.foldl min a ∈ xs
  | [], _ => Or.inl rfl
  | x :: xs, a => by
    rcases foldl_min_eq_or_mem xs (min a x) with h | h
    · rcases min_choice a x with hm | hm
      · exact Or.inl (by rw [List.foldl_cons, h, hm])
      · exact Or.inr (by rw [List.foldl_cons, h, hm]; exact List.mem_cons_self x xs)
    · exact Or.inr (List.mem_cons_of_mem x h)

theorem yMin_mem {s : List ℚ} (hs : s ≠ []) : yMin s ∈ s := by
  cases s with
  | nil => exact absurd rfl hs
  | cons y ys =>
    rcases foldl_min_eq_or_mem ys y with h | h
    · rw [yMin, h]; exact List.mem_cons_self y ys
    · exact List.mem_cons_of_mem y h

theorem le_foldl_max_init : ∀ (xs : List ℚ) (a : ℚ), a ≤ xs.foldl max a
  | [], _ => le_refl _
  | x :: xs, a => le_trans (le_max_left a x) (le_foldl_max_init xs (max a x))

theorem mem_le_foldl_max : ∀ (xs : List ℚ) (a x : ℚ), x ∈ xs → x ≤ xs.foldl max a
  | y :: xs, a, x, hx => by
    rcases List.mem_cons.mp hx with h | h
    · subst h
      exact le_trans (le_max_right a x) (le_foldl_max_init xs (max a x))
    · exact mem_le_foldl_max xs (max a y) x h

theorem le_yMax {s : List ℚ} {x : ℚ} (hx : x ∈ s) : x ≤ yMax s := by
  cases s with
  | nil => cases hx
  | cons y ys =>
    rcases List.mem_cons.mp hx with h | h
    · subst h; exact le_foldl_max_init ys x
    · exact mem_le_foldl_max ys y x h

theorem foldl_max_eq_or_mem : ∀ (xs : List ℚ) (a : ℚ),
    xs.foldl max a = a ∨ xs.foldl max a ∈ xs
  | [], _ => Or.inl rfl
  | x :: xs, a => by
    rcases foldl_max_eq_or_mem xs (max a x) with h | h
    · rcases max_choice a x with hm | hm
      · exact Or.inl (by rw [List.foldl_cons, h, hm])
      · exact Or.inr (by rw [List.foldl_cons, h, hm]; exact List.mem_cons_self x xs)
    · exact Or.inr (List.mem_cons_of_mem x h)

theorem yMax_mem {s : List ℚ} (hs : s ≠ []) : yMax s ∈ s := by
  cases s with
  | nil => exact absurd rfl hs
  | cons y ys =>
    rcases foldl_max_eq_or_mem ys y with h | h
    · rw [yMax, h]; exact List.mem_cons_self y ys
    · exact List.mem_cons_of_mem y h

theorem yMin_le_yMax {s : List ℚ} (hs : s ≠ []) : yMin s ≤ yMax s :=
  yMin_le (yMax_mem hs)

theorem foldl_min_map (f : ℚ → ℚ) (hf : ∀ u v, f (min u v) = min (f u) (f v)) :
    ∀ (xs : List ℚ) (a : ℚ), (xs.map f).foldl min (f a) = f (xs.foldl min a)
  | [], _ => rfl
  | x :: xs, a => by
    rw [List.map_cons, List.foldl_cons, List.foldl_cons, ← hf,
      foldl_min_map f hf xs (min a x)]

theorem yMin_map (f : ℚ → ℚ) (hf : ∀ u v, f (min u v) = min (f u) (f v))
    {s : List ℚ} (hs : s ≠ []) : yMin (s.map f) = f (yMin s) := by
  cases s with
  | nil => exact absurd rfl hs
  | cons y ys => rw [List.map_cons, yMin, yMin, foldl_min_map f hf]

theorem foldl_max_map (f : ℚ → ℚ) (hf : ∀ u v, f (max u v) = max (f u) (f v)) :
    ∀ (xs : List ℚ) (a : ℚ), (xs.map f).foldl max (f a) = f (xs.foldl max a)
  | [], _ => rfl
  | x :: xs, a => by
    rw [List.map_cons, List.foldl_cons, List.foldl_cons, ← hf,
      foldl_max_map f hf xs (max a x)]

theorem yMax_map (f : ℚ → ℚ) (hf : ∀ u v, f (max u v) = max (f u) (f v))
    {s : List ℚ} (hs : s ≠ []) : yMax (s.map f) = f (yMax s) := by
  cases s with
  | nil => exact absurd rfl hs
  | cons y ys => rw [List.map_cons, yMax, yMax, foldl_max_map f hf]

theorem affine_min (c r : ℚ) (hr : 0 < r) (u v : ℚ) :
    (min u v - c) / r = min ((u - c) / r) ((v - c) / r) := by
  rw [← min_sub_sub_right u v c, min_div_div_right (le_of_lt hr)]

theorem affine_max (c r : ℚ) (hr : 0 < r) (u v : ℚ) :
    (max u v - c) / r = max ((u - c) / r) ((v - c) / r) := by
  rw [← max_sub_sub_right u v c, max_div_div_right (le_of_lt hr)]

/-- The extraction of line 47 succeeds whenever the addressed trial exists and
every requested channel index is within the trial's row count, and then
yields exactly the addressed rows, in request order. -/
theorem selectSignals_ok (eeg : List (List (List ℚ))) (trial : ℕ)
    (td : List (List ℚ)) (htd : eeg[trial]? = some td) :
    ∀ channels : List ℤ, (∀ ch ∈ channels, 0 ≤ ch ∧ ch.toNat < td.length) →
      selectSignals eeg trial channels
        = .ok (channels.map (fun ch => td.getD ch.toNat []))
  | [], _ => rfl
  | ch :: rest, h => by
    have hch := h ch (List.mem_cons_self ch rest)
    have hacc : (eeg[trial]?).bind (fun t => t[ch.toNat]?)
        = some (td.getD ch.toNat []) := by
      rw [htd, Option.some_bind, List.getElem?_eq_getElem hch.2,
        List.getD_eq_getElem _ _ hch.2]
    have hrest := selectSignals_ok eeg trial td htd rest
      (fun c hc => h c (List.mem_cons_of_mem ch hc))
    simp only [selectSignals, hacc, hrest, List.map_cons]

end Eeg

namespace Eeg

/-- C1: for every nonempty series and zoom > 0 with distinct min and max,
`normalize` returns a series of the same length whose sample at each index i
equals `(sample - center) / range` with `center = (min + max) / 2` and
`range = (max - min) / zoom`; `yMin`/`yMax` really are the minimum and
maximum of the series (they belong to it and bound every element). -/
theorem normalize_pointwise (s : List ℚ) (zoom : ℚ) (hs : s ≠ [])
    (hz : 0 < zoom) (hmm : yMin s ≠ yMax s) :
    (normalize s zoom).length = s.length ∧
    (∀ i, i < s.length → (normalize s zoom).getD i 0 =
      (s.getD i 0 - (yMin s + yMax s) / 2) / ((yMax s - yMin s) / zoom)) ∧
    yMin s ∈ s ∧ (∀ x ∈ s, yMin s ≤ x) ∧ yMax s ∈ s ∧ (∀ x ∈ s, x ≤ yMax s) := by
  refine ⟨by simp [normalize], ?_, yMin_mem hs, fun x hx => yMin_le hx,
    yMax_mem hs, fun x hx => le_yMax hx⟩
  intro i hi
  simp only [normalize]
  rw [List.getD_eq_getElem _ _ (by simpa [normalize] using hi),
    List.getD_eq_getElem _ _ hi, List.getElem_map]

/-- Witness for C1 at the spec's concrete example: the hypotheses hold for
`[0, 2, 4, 6]` with zoom 2, the pointwise formula follows by applying the
theorem, and concretely the center is 3, the range is 3, and the output is
`[-1, -1/3, 1/3, 1]` exactly. -/
theorem normalize_pointwise_witness :
    (sEx ≠ [] ∧ (0 : ℚ) < 2 ∧ yMin sEx ≠ yMax sEx) ∧
    ((normalize sEx 2).length = sEx.length ∧
      (∀ i, i < sEx.length → (normalize sEx 2).getD i 0 =
        (sEx.getD i 0 - (yMin sEx + yMax sEx) / 2) / ((yMax sEx - yMin sEx) / 2)) ∧
      yMin sEx ∈ sEx ∧ (∀ x ∈ sEx, yMin sEx ≤ x) ∧
      yMax sEx ∈ sEx ∧ (∀ x ∈ sEx, x ≤ yMax sEx)) ∧
    (yMin sEx + yMax sEx) / 2 = 3 ∧ (yMax sEx - yMin sEx) / 2 = 3 ∧
    normalize sEx 2 = [-1, -1/3, 1/3, 1] := by
  have h1 : sEx ≠ [] := by simp [sEx]
  have h2 : (0 : ℚ) < 2 := by norm_num
  have h3 : yMin sEx ≠ yMax sEx := by norm_num [sEx, yMin, yMax]
  exact ⟨⟨h1, h2, h3⟩, normalize_pointwise sEx 2 h1 h2 h3,
    by norm_num [sEx, yMin, yMax], by norm_num [sEx, yMin, yMax],
    by norm_num [sEx, normalize, yMin, yMax]⟩

/-- C2 (divergence record): on the constant series `[5, 5, 5]` with zoom 1
the code raises nothing at all — `y_range` is `(5 - 5) / 1 = 0` and the code
divides by it unguarded (IEEE: NaN; in this exact embedding the total
division by zero yields 0, so the output is `[0, 0, 0]`).  No
`DegenerateSeriesError` exists anywhere in the code: `normalize` is
straight-line arithmetic returning a value on every input. -/
theorem normalize_degenerate_no_error :
    (yMax [5, 5, 5] - yMin [5, 5, 5]) / 1 = 0 ∧
    normalize [5, 5, 5] 1 = [0, 0, 0] := by
  norm_num [normalize, yMin, yMax]

/-- C5: for every non-degenerate series and zoom > 0, the output of
`normalize` satisfies `max(output) - min(output) = zoom` exactly. -/
theorem normalize_range (s : List ℚ) (zoom : ℚ) (hs : s ≠ []) (hz : 0 < zoom)
    (hmm : yMin s ≠ yMax s) :
    yMax (normalize s zoom) - yMin (normalize s zoom) = zoom := by
  have hlt : yMin s < yMax s := lt_of_le_of_ne (yMin_le_yMax hs) hmm
  have hMm : yMax s - yMin s ≠ 0 := sub_ne_zero.mpr (ne_of_gt hlt)
  have hr : 0 < (yMax s - yMin s) / zoom := div_pos (sub_pos.mpr hlt) hz
  simp only [normalize]
  rw [yMax_map _ (affine_max _ _ hr) hs, yMin_map _ (affine_min _ _ hr) hs,
    div_sub_div_same]
  have h1 : yMax s - (yMin s + yMax s) / 2 - (yMin s - (yMin s + yMax s) / 2)
      = yMax s - yMin s := by ring
  rw [h1]
  field_simp

/-- Witness for C5 at `[0, 2, 4, 6]` with zoom 2: the output amplitude is
exactly the zoom factor. -/
theorem normalize_range_witness :
    (sEx ≠ [] ∧ (0 : ℚ) < 2 ∧ yMin sEx ≠ yMax sEx) ∧
    yMax (normalize sEx 2) - yMin (normalize sEx 2) = 2 := by
  have h1 : sEx ≠ [] := by simp [sEx]
  have h2 : (0 : ℚ) < 2 := by norm_num
  have h3 : yMin sEx ≠ yMax sEx := by norm_num [sEx, yMin, yMax]
  exact ⟨⟨h1, h2, h3⟩, normalize_range sEx 2 h1 h2 h3⟩

/-- C6 (divergence record): the code performs no validation of `zoom_y` at
all.  With `zoom_y = -1 ≤ 0` on `[0, 2, 4, 6]` it silently returns the
sign-flipped series `[1/2, 1/6, -1/6, -1/2]` instead of failing with
`InvalidArgumentError`: there is no such error path in the code. -/
theorem normalize_no_zoom_validation :
    (-1 : ℚ) ≤ 0 ∧ normalize [0, 2, 4, 6] (-1) = [1/2, 1/6, -1/6, -1/2] := by
  norm_num [normalize, yMin, yMax]

/-- C9: normalizing with zoom 1 is idempotent on every non-degenerate
series; in this exact embedding the reproduction is on the nose (the center
of the once-normalized series is 0 and its range is 1). -/
theorem normalize_idem (s : List ℚ) (hs : s ≠ []) (hmm : yMin s ≠ yMax s) :
    normalize (normalize s 1) 1 = normalize s 1 := by
  have hlt : yMin s < yMax s := lt_of_le_of_ne (yMin_le_yMax hs) hmm
  have hMm : yMax s - yMin s ≠ 0 := sub_ne_zero.mpr (ne_of_gt hlt)
  have hr : 0 < (yMax s - yMin s) / 1 := by
    rw [div_one]; exact sub_pos.mpr hlt
  have hmin : yMin (normalize s 1)
      = (yMin s - (yMin s + yMax s) / 2) / ((yMax s - yMin s) / 1) := by
    simp only [normalize]
    exact yMin_map _ (affine_min _ _ hr) hs
  have hmax : yMax (normalize s 1)
      = (yMax s - (yMin s + yMax s) / 2) / ((yMax s - yMin s) / 1) := by
    simp only [normalize]
    exact yMax_map _ (affine_max _ _ hr) hs
  have hcenter : (yMin (normalize s 1) + yMax (normalize s 1)) / 2 = 0 := by
    rw [hmin, hmax, div_add_div_same]
    have h0 : yMin s - (yMin s + yMax s) / 2 + (yMax s - (yMin s + yMax s) / 2)
        = 0 := by ring
    rw [h0, zero_div, zero_div]
  have hrange : (yMax (normalize s 1) - yMin (normalize s 1)) / 1 = 1 := by
    rw [div_one, hmin, hmax, div_sub_div_same]
    have h1 : yMax s - (yMin s + yMax s) / 2 - (yMin s - (yMin s + yMax s) / 2)
        = yMax s - yMin s := by ring
    rw [h1, div_one, div_self hMm]
  set t := normalize s 1 with ht
  show normalize t 1 = t
  simp only [normalize]
  rw [hcenter, hrange]
  simp

/-- Witness for C9 at `[0, 2, 4, 6]`: renormalizing the normalized series
with zoom 1 reproduces it exactly. -/
theorem normalize_idem_witness :
    (sEx ≠ [] ∧ yMin sEx ≠ yMax sEx) ∧
    normalize (normalize sEx 1) 1 = normalize sEx 1 := by
  have h1 : sEx ≠ [] := by simp [sEx]
  have h3 : yMin sEx ≠ yMax sEx := by norm_num [sEx, yMin, yMax]
  exact ⟨⟨h1, h3⟩, normalize_idem sEx h1 h3⟩

end Eeg

namespace Eeg

/-- C8: when the dataset lacks the sample-array field or the label-array
field, `extract` fails with the dataset-integrity error — for every trial
index and channel list, including invalid ones, so the field check precedes
all index validation and extraction. -/
theorem extract_missing_field (ds : Dataset) (trial : ℤ) (channels : List ℤ)
    (h : ds.data? = none ∨ ds.labels? = none) :
    extract ds trial channels = .error .datasetIntegrity := by
  obtain ⟨d, l⟩ := ds
  rcases h with h | h
  · simp only at h
    subst h
    cases l <;> rfl
  · simp only at h
    subst h
    cases d <;> rfl

/-- Witness for C8: a dataset without its sample-array field is rejected
with the dataset-integrity error even though the trial index and channel
list are also (wildly) invalid. -/
theorem extract_missing_field_witness :
    (dsNoData.data? = none ∨ dsNoData.labels? = none) ∧
    extract dsNoData (-7) [99] = .error .datasetIntegrity :=
  ⟨Or.inl rfl, extract_missing_field dsNoData (-7) [99] (Or.inl rfl)⟩

/-- C7: for every trial index outside `[0, trial_count)` — below 0 or at
least the dataset's trial count — `extract` fails with the range error. -/
theorem extract_bad_trial (ds : Dataset) (eeg : List (List (List ℚ)))
    (labels : List (List ℚ)) (trial : ℤ) (channels : List ℤ)
    (hd : ds.data? = some eeg) (hl : ds.labels? = some labels)
    (ht : trial < 0 ∨ (eeg.length : ℤ) ≤ trial) :
    extract ds trial channels = .error .rangeBound := by
  obtain ⟨d, l⟩ := ds
  simp only at hd hl
  subst hd; subst hl
  simp only [extract]
  rw [if_pos ht]

/-- Witness for C7: trial 2 of the 2-trial concrete dataset is rejected with
the range error. -/
theorem extract_bad_trial_witness :
    (dsEx.data? = some eegEx ∧ dsEx.labels? = some labelsEx ∧
      ((2 : ℤ) < 0 ∨ (eegEx.length : ℤ) ≤ 2)) ∧
    extract dsEx 2 [1] = .error .rangeBound :=
  ⟨⟨rfl, rfl, Or.inr (by decide)⟩,
    extract_bad_trial dsEx eegEx labelsEx 2 [1] rfl rfl (Or.inr (by decide))⟩

/-- C3: whenever the requested channel list contains an entry outside
`[0, channel_count)`, `extract` fails with the range error; the theorem
holds with no assumption on the array contents, so the whole request is
rejected before any data is extracted and no partial result is returned. -/
theorem extract_bad_channel (ds : Dataset) (eeg : List (List (List ℚ)))
    (labels : List (List ℚ)) (trial : ℤ) (channels : List ℤ)
    (hd : ds.data? = some eeg) (hl : ds.labels? = some labels)
    (ht0 : 0 ≤ trial) (ht1 : trial < (eeg.length : ℤ))
    (hbad : ∃ ch ∈ channels, ch < 0 ∨ (channelCount eeg : ℤ) ≤ ch) :
    extract ds trial channels = .error .rangeBound := by
  obtain ⟨d, l⟩ := ds
  simp only at hd hl
  subst hd; subst hl
  simp only [extract]
  rw [if_neg (by push_neg; exact ⟨ht0, ht1⟩)]
  rw [if_pos (by simpa [List.any_eq_true] using hbad)]

/-- Witness for C3: requesting channels `[1, 3]` of the 3-channel concrete
dataset — one valid, one out of bounds — is rejected whole with the range
error. -/
theorem extract_bad_channel_witness :
    (dsEx.data? = some eegEx ∧ dsEx.labels? = some labelsEx ∧
      (0 : ℤ) ≤ 0 ∧ (0 : ℤ) < (eegEx.length : ℤ) ∧
      (∃ ch ∈ ([1, 3] : List ℤ), ch < 0 ∨ (channelCount eegEx : ℤ) ≤ ch)) ∧
    extract dsEx 0 [1, 3] = .error .rangeBound :=
  ⟨⟨rfl, rfl, by decide, by decide, by decide⟩,
    extract_bad_channel dsEx eegEx labelsEx 0 [1, 3] rfl rfl (by decide)
      (by decide) (by decide)⟩

/-- C4: for a valid trial index, a nonempty list of valid channel indices,
and a dataset of the shapes the spec states (rectangular signal array,
label rows of at least two attributes, one label row per trial), `extract`
succeeds and returns one raw sample sequence per requested channel — the
row at `(trial, channel)` — in request order, each of the dataset's
per-trial sample count, together with `valence = labels[trial][0]` and
`arousal = labels[trial][1]`. -/
theorem extract_ok (ds : Dataset) (eeg : List (List (List ℚ)))
    (labels : List (List ℚ)) (trial : ℤ) (channels : List ℤ)
    (hd : ds.data? = some eeg) (hl : ds.labels? = some labels)
    (hshape : WellShaped eeg)
    (hlab : labels.length = eeg.length)
    (hattr : ∀ row ∈ labels, 2 ≤ row.length)
    (ht0 : 0 ≤ trial) (ht1 : trial < (eeg.length : ℤ))
    (hcne : channels ≠ [])
    (hch : ∀ ch ∈ channels, 0 ≤ ch ∧ ch < (channelCount eeg : ℤ)) :
    ∃ tv : TrialView,
      extract ds trial channels = .ok tv ∧
      tv.signals.length = channels.length ∧
      (∀ i, i < channels.length →
        tv.signals.getD i [] =
          (eeg.getD trial.toNat []).getD (channels.getD i 0).toNat []) ∧
      (∀ s ∈ tv.signals, s.length = sampleCount eeg) ∧
      tv.valence = (labels.getD trial.toNat []).getD 0 0 ∧
      tv.arousal = (labels.getD trial.toNat []).getD 1 0 := by
  obtain ⟨d, l⟩ := ds
  simp only at hd hl
  subst hd; subst hl
  have htn : trial.toNat < eeg.length := by omega
  have htd : eeg[trial.toNat]? = some (eeg.getD trial.toNat []) := by
    rw [List.getElem?_eq_getElem htn, List.getD_eq_getElem _ _ htn]
  set td := eeg.getD trial.toNat [] with htddef
  have htdmem : td ∈ eeg := by
    rw [htddef, List.getD_eq_getElem _ _ htn]
    exact List.getElem_mem htn
  have htdlen : td.length = channelCount eeg := hshape.1 td htdmem
  have hrn : trial.toNat < labels.length := by rw [hlab]; exact htn
  have hrow : labels[trial.toNat]? = some (labels.getD trial.toNat []) := by
    rw [List.getElem?_eq_getElem hrn, List.getD_eq_getElem _ _ hrn]
  set row := labels.getD trial.toNat [] with hrowdef
  have hrmem : row ∈ labels := by
    rw [hrowdef, List.getD_eq_getElem _ _ hrn]
    exact List.getElem_mem hrn
  have hrl : 2 ≤ row.length := hattr row hrmem
  have h0 : row[0]? = some (row.getD 0 0) := by
    rw [List.getElem?_eq_getElem (by omega), List.getD_eq_getElem _ _ (by omega)]
  have h1 : row[1]? = some (row.getD 1 0) := by
    rw [List.getElem?_eq_getElem (by omega), List.getD_eq_getElem _ _ (by omega)]
  have hsel := selectSignals_ok eeg trial.toNat td htd channels
    (fun c hc => ⟨(hch c hc).1, by have h := (hch c hc); rw [htdlen]; omega⟩)
  have hany : (channels.any (fun ch => ch < 0 ∨ (channelCount eeg : ℤ) ≤ ch))
      = false := by
    simp only [List.any_eq_false, decide_eq_true_eq]
    intro x hx
    have h := hch x hx
    omega
  obtain ⟨c0, cs, rfl⟩ : ∃ c0 cs, channels = c0 :: cs := by
    cases channels with
    | nil => exact absurd rfl hcne
    | cons a b => exact ⟨a, b, rfl⟩
  refine ⟨⟨(c0 :: cs).map (fun ch => td.getD ch.toNat []), row.getD 0 0,
    row.getD 1 0, (td.getD c0.toNat []).length⟩, ?_, ?_, ?_, ?_, rfl, rfl⟩
  · simp only [extract]
    rw [if_neg (by push_neg; exact ⟨ht0, ht1⟩)]
    rw [if_neg (by rw [hany]; simp)]
    rw [hrow]
    simp only [Option.some_bind, h0, h1]
    rw [hsel]
    rfl
  · simp
  · intro i hi
    rw [List.getD_eq_getElem _ _ (by simpa using hi), List.getElem_map,
      List.getD_eq_getElem _ _ hi]
  · intro s hs
    rw [List.mem_map] at hs
    obtain ⟨ch, hcm, rfl⟩ := hs
    have hc := hch ch hcm
    have hlt : ch.toNat < td.length := by rw [htdlen]; omega
    rw [List.getD_eq_getElem _ _ hlt]
    exact hshape.2 td htdmem _ (List.getElem_mem hlt)

/-- Witness for C4: requesting trial 0, channels `[1, 0]` of the concrete
dataset satisfies every hypothesis, and concretely the result is the two
addressed rows in request order — `[[0,2,4,6], [9,9,9,9]]` — with valence 5
and arousal 6. -/
theorem extract_ok_witness :
    (dsEx.data? = some eegEx ∧ dsEx.labels? = some labelsEx ∧
      WellShaped eegEx ∧ labelsEx.length = eegEx.length ∧
      (∀ row ∈ labelsEx, 2 ≤ row.length) ∧
      (0 : ℤ) ≤ 0 ∧ (0 : ℤ) < (eegEx.length : ℤ) ∧ ([1, 0] : List ℤ) ≠ [] ∧
      (∀ ch ∈ ([1, 0] : List ℤ), 0 ≤ ch ∧ ch < (channelCount eegEx : ℤ))) ∧
    (∃ tv : TrialView,
      extract dsEx 0 [1, 0] = .ok tv ∧
      tv.signals.length = ([1, 0] : List ℤ).length ∧
      (∀ i, i < ([1, 0] : List ℤ).length →
        tv.signals.getD i [] =
          (eegEx.getD (0 : ℤ).toNat []).getD ((([1, 0] : List ℤ).getD i 0).toNat) []) ∧
      (∀ s ∈ tv.signals, s.length = sampleCount eegEx) ∧
      tv.valence = (labelsEx.getD (0 : ℤ).toNat []).getD 0 0 ∧
      tv.arousal = (labelsEx.getD (0 : ℤ).toNat []).getD 1 0) ∧
    extract dsEx 0 [1, 0] = .ok ⟨[[0, 2, 4, 6], [9, 9, 9, 9]], 5, 6, 4⟩ :=
  ⟨⟨rfl, rfl, ⟨by decide, by decide⟩, rfl, by decide, by decide, by decide,
      by decide, by decide⟩,
    extract_ok dsEx eegEx labelsEx 0 [1, 0] rfl rfl ⟨by decide, by decide⟩
      rfl (by decide) (by decide) (by decide) (by decide) (by decide),
    rfl⟩

/-- C10: for an empty channel list and a valid trial of a well-formed
dataset, the per-channel validation passes vacuously (there is nothing to
check) and the operation then fails with the unguarded index access of
`selected_signals[0]` at line 48 — not with one of the typed validation
errors. -/
theorem extract_no_channels (ds : Dataset) (eeg : List (List (List ℚ)))
    (labels : List (List ℚ)) (trial : ℤ)
    (hd : ds.data? = some eeg) (hl : ds.labels? = some labels)
    (ht0 : 0 ≤ trial) (ht1 : trial < (eeg.length : ℤ))
    (hrow : ∃ row, labels[trial.toNat]? = some row ∧ 2 ≤ row.length) :
    extract ds trial [] = .error .indexAccess := by
  obtain ⟨d, l⟩ := ds
  simp only at hd hl
  subst hd; subst hl
  obtain ⟨row, hr, hlen⟩ := hrow
  have h0 : row[0]? = some (row.getD 0 0) := by
    rw [List.getElem?_eq_getElem (by omega), List.getD_eq_getElem _ _ (by omega)]
  have h1 : row[1]? = some (row.getD 1 0) := by
    rw [List.getElem?_eq_getElem (by omega), List.getD_eq_getElem _ _ (by omega)]
  simp only [extract]
  rw [if_neg (by push_neg; exact ⟨ht0, ht1⟩)]
  rw [if_neg (by simp)]
  rw [hr]
  simp only [Option.some_bind, h0, h1, selectSignals]
  rfl

/-- Witness for C10: on the concrete dataset with a valid trial 0 and an
empty channel list, `extract` fails with the index-access error. -/
theorem extract_no_channels_witness :
    (dsEx.data? = some eegEx ∧ dsEx.labels? = some labelsEx ∧
      (0 : ℤ) ≤ 0 ∧ (0 : ℤ) < (eegEx.length : ℤ) ∧
      (∃ row, labelsEx[(0 : ℤ).toNat]? = some row ∧ 2 ≤ row.length)) ∧
    extract dsEx 0 [] = .error .indexAccess :=
  ⟨⟨rfl, rfl, by decide, by decide, ⟨[5, 6, 0, 0], rfl, by norm_num⟩⟩,
    extract_no_channels dsEx eegEx labelsEx 0 rfl rfl (by decide) (by decide)
      ⟨[5, 6, 0, 0], rfl, by norm_num⟩⟩

end Eeg
